import Mathlib

set_option maxRecDepth 100000

/-!
# Verification of the OLMKit account core

Shallow embedding of the account/key-management core declared in
`include/olm/account.hh` and consumed by the JNI binding
`olm_account.cpp`.  The header declares the `Account` data model
(`LocalKey`, `MAX_ONE_TIME_KEYS`, `new_account`, `lookup_key`,
`remove_key`) and the free functions `pickle_length`, `pickle` and
`unpickle`; the bodies of those operations are not part of the visible
source, so they are modelled from the specification, as marked on each
definition.  Byte buffers are modelled as `List Nat` with values reduced
modulo 256 where the C code stores into `uint8_t`.
-/

namespace Olm

/-- The error taxonomy of the core.  Modelled from the spec: the error
kinds include at least not-enough-random, output-buffer-too-small,
bad-account-key, no-such-one-time-key, corrupt pickle and
unknown-pickle-version; `SUCCESS` is the initial latched value. -/
inductive ErrorCode where
  | SUCCESS
  | NOT_ENOUGH_RANDOM
  | OUTPUT_BUFFER_TOO_SMALL
  | BAD_ACCOUNT_KEY
  | NO_SUCH_KEY
  | CORRUPT_PICKLE
  | UNKNOWN_PICKLE_VERSION
  | CAPACITY_EXCEEDED
deriving DecidableEq, Repr

/-- A Curve25519 key pair: 32 private bytes and 32 public bytes
(`Curve25519KeyPair` in `olm/crypto.hh`, an external collaborator of the
account core; only its byte-level shape matters here). -/
structure Curve25519KeyPair where
  private_key : List Nat
  public_key : List Nat
deriving DecidableEq, Repr

/-- `LocalKey` from `account.hh`: an account-scoped sequence id together
with a key pair.  The spec calls the id a monotonically increasing
sequence number that is never reused; it is modelled as an unbounded
natural number accordingly. -/
structure LocalKey where
  id : Nat
  key : Curve25519KeyPair
deriving DecidableEq, Repr

/-- `MAX_ONE_TIME_KEYS` from `account.hh`. -/
def MAX_ONE_TIME_KEYS : Nat := 100

/-- Modelled from the spec: the elliptic-curve primitive library
(`olm/crypto.hh`) is a trusted external collaborator; public-key
derivation is modelled as a fixed deterministic byte-to-byte function
that preserves the 32-byte shape.  No claim depends on curve
arithmetic, only on determinism and on byte lengths. -/
def curvePublic (priv : List Nat) : List Nat :=
  priv.map (fun b => (b * 7 + 3) % 256)

/-- Modelled from the spec: deterministically derive a key pair from 32
bytes of caller-supplied entropy.  The private scalar is the entropy
itself (each value reduced to a byte, mirroring the `uint8_t` buffer);
the public point is `curvePublic` of it. -/
def generateKey (entropy : List Nat) : Curve25519KeyPair :=
  let priv := (entropy.take 32).map (fun b => b % 256)
  ⟨priv, curvePublic priv⟩

/-- `Account` from `account.hh`, extended with the state the spec
requires the operations to maintain: the not-yet-initialized identity
key is `none` (spec: `identity_key` is unset before `new_account`);
`next_key_id` is the account-scoped id generator (spec: ids form a
monotonically increasing sequence, never reused); `publish_boundary` is
the index partitioning `one_time_keys` into a published front segment
and an unpublished tail (spec: a publish boundary, an index). -/
structure Account where
  identity_key : Option LocalKey
  one_time_keys : List LocalKey
  next_key_id : Nat
  publish_boundary : Nat
  last_error : ErrorCode
deriving DecidableEq, Repr

/-- A freshly allocated account, before `new_account`. -/
def Account.fresh : Account :=
  ⟨none, [], 0, 0, ErrorCode.SUCCESS⟩

/-- `new_account_random_length`: number of random bytes needed to create
a new account (one Curve25519 key pair's worth of entropy). -/
def new_account_random_length : Nat := 32

/-- Modelled from the spec: `Account::new_account`.  Fails with
`NOT_ENOUGH_RANDOM`, mutating nothing but the latched error, when fewer
than `new_account_random_length` random bytes are supplied; otherwise
assigns `identity_key` (with the fixed id 0) and returns the number of
random bytes consumed. -/
def Account.new_account (a : Account) (random : List Nat) :
    Account × Option Nat :=
  if random.length < new_account_random_length then
    ({ a with last_error := ErrorCode.NOT_ENOUGH_RANDOM }, none)
  else
    ({ a with
        identity_key := some ⟨0, generateKey random⟩,
        next_key_id := 1 }, some new_account_random_length)

/-- One key pair consumes 32 bytes of entropy. -/
def one_time_key_random_length (count : Nat) : Nat := 32 * count

/-- The batch of fresh keys appended by a successful generation:
consecutive ids starting at `startId`, each key pair derived from the
next 32 bytes of entropy. -/
def genKeys (startId : Nat) (count : Nat) (random : List Nat) :
    List LocalKey :=
  match count with
  | 0 => []
  | n + 1 =>
      ⟨startId, generateKey random⟩ :: genKeys (startId + 1) n (random.drop 32)

/-- Modelled from the spec: `generate_one_time_keys(count, random)`.
Fails with `NOT_ENOUGH_RANDOM` when fewer than `count * 32` random bytes
are supplied; fails with `CAPACITY_EXCEEDED`, rejecting the whole batch
(the spec's safe-default overflow policy), when the total would exceed
`MAX_ONE_TIME_KEYS`; otherwise appends `count` fresh keys to the
unpublished tail, assigning each the next unused sequence id. -/
def Account.generate_one_time_keys (a : Account) (count : Nat)
    (random : List Nat) : Account × Option Nat :=
  if random.length < one_time_key_random_length count then
    ({ a with last_error := ErrorCode.NOT_ENOUGH_RANDOM }, none)
  else if MAX_ONE_TIME_KEYS < a.one_time_keys.length + count then
    ({ a with last_error := ErrorCode.CAPACITY_EXCEEDED }, none)
  else
    ({ a with
        one_time_keys := a.one_time_keys ++ genKeys a.next_key_id count random,
        next_key_id := a.next_key_id + count },
     some (one_time_key_random_length count))

/-- `Account::lookup_key`: find the one-time key with the given id;
absence is not an error and does not touch `last_error`. -/
def Account.lookup_key (a : Account) (id : Nat) : Option LocalKey :=
  a.one_time_keys.find? (fun k => k.id == id)

/-- Remove the first entry with the given id, returning its index and
the remaining list (relative order preserved). -/
def removeKeyAux (id : Nat) : List LocalKey → Option (Nat × List LocalKey)
  | [] => none
  | k :: rest =>
      if k.id = id then some (0, rest)
      else
        match removeKeyAux id rest with
        | none => none
        | some (i, l) => some (i + 1, k :: l)

/-- Modelled from the spec: `Account::remove_key(id)`.  Removes the
one-time key with the given id, preserving the relative order of the
remaining entries, and returns the removed index; fails with the
no-such-key error when the id is absent.  The publish boundary is an
index, so removing a published entry shifts it down by one. -/
def Account.remove_key (a : Account) (id : Nat) : Account × Option Nat :=
  match removeKeyAux id a.one_time_keys with
  | none => ({ a with last_error := ErrorCode.NO_SUCH_KEY }, none)
  | some (i, l) =>
      ({ a with
          one_time_keys := l,
          publish_boundary :=
            if i < a.publish_boundary then a.publish_boundary - 1
            else a.publish_boundary }, some i)

/-- Modelled from the spec: `mark_keys_as_published` advances the
publish boundary to the current size. -/
def Account.mark_keys_as_published (a : Account) : Account :=
  { a with publish_boundary := a.one_time_keys.length }

/-- The entries still eligible for export to peers: the tail after the
publish boundary. -/
def Account.unpublished_keys (a : Account) : List LocalKey :=
  a.one_time_keys.drop a.publish_boundary

/-! ## The pickle format

Modelled from the spec: a versioned, sequential encoding of the
identity key pair, the one-time key list (each entry's id and key pair
bytes, in order) and the publish boundary.  Key ids are unbounded
sequence numbers, so they are written in a variable-length base-128
integer encoding; the list length and the publish boundary (both at
most `MAX_ONE_TIME_KEYS`) are written as 4 little-endian bytes. -/

/-- The pickle format version tag. -/
def PICKLE_VERSION : Nat := 1

/-- Worker for `writeVarNat`: structural recursion on a fuel bound (any
fuel at least the encoded number yields the encoding). -/
def writeVarNatAux : Nat → Nat → List Nat
  | 0, n => [n % 128]
  | fuel + 1, n =>
      if n < 128 then [n]
      else (n % 128 + 128) :: writeVarNatAux fuel (n / 128)

/-- Variable-length base-128 encoding of a natural number: groups of 7
bits, least significant first, a set high bit marking continuation. -/
def writeVarNat (n : Nat) : List Nat := writeVarNatAux n n

/-- Worker for `varLen`, mirroring `writeVarNatAux`. -/
def varLenAux : Nat → Nat → Nat
  | 0, _ => 1
  | fuel + 1, n =>
      if n < 128 then 1
      else 1 + varLenAux fuel (n / 128)

/-- Number of bytes `writeVarNat` occupies, computed arithmetically
without producing the encoding. -/
def varLen (n : Nat) : Nat := varLenAux n n

/-- 4 little-endian bytes of a (bounded) natural number. -/
def encodeUInt32 (n : Nat) : List Nat :=
  [n % 256, n / 256 % 256, n / 256 / 256 % 256, n / 256 / 256 / 256 % 256]

/-- Encoded key pair: the 32 private bytes then the 32 public bytes. -/
def pickleKeyPair (k : Curve25519KeyPair) : List Nat :=
  k.private_key ++ k.public_key

/-- Encoded `LocalKey`: the id, then the key pair bytes. -/
def pickleLocalKey (k : LocalKey) : List Nat :=
  writeVarNat k.id ++ pickleKeyPair k.key

/-- Encoded one-time key list, in order. -/
def pickleKeys : List LocalKey → List Nat
  | [] => []
  | k :: ks => pickleLocalKey k ++ pickleKeys ks

/-- Placeholder identity key serialized for a not-yet-initialized
account (reachable accounts always carry a real identity key). -/
def defaultLocalKey : LocalKey :=
  ⟨0, ⟨List.replicate 32 0, List.replicate 32 0⟩⟩

/-- Modelled from the spec: `pickle(pos, account)`.  The buffer is the
produced byte list: version tag, identity key, one-time key count, the
keys in order, publish boundary. -/
def Account.pickle (a : Account) : List Nat :=
  PICKLE_VERSION :: pickleLocalKey (a.identity_key.getD defaultLocalKey)
    ++ encodeUInt32 a.one_time_keys.length
    ++ pickleKeys a.one_time_keys
    ++ encodeUInt32 a.publish_boundary

/-- Byte count of an encoded `LocalKey`. -/
def localKeyLen (k : LocalKey) : Nat := varLen k.id + 64

/-- Byte count of the encoded one-time key list. -/
def keysLen : List LocalKey → Nat
  | [] => 0
  | k :: ks => localKeyLen k + keysLen ks

/-- Modelled from the spec: `pickle_length(account)`, the exact size of
the serialized form, computed from the account state alone without
performing the encoding. -/
def pickle_length (a : Account) : Nat :=
  1 + localKeyLen (a.identity_key.getD defaultLocalKey) + 4
    + keysLen a.one_time_keys + 4

/-! ## The streaming decoder

Each reader consumes bytes from the front of the remaining buffer and
returns the decoded value together with the rest; a reader that would
need bytes beyond the end of the buffer returns `none` instead of
reading past it. -/

/-- Read a variable-length base-128 natural number. -/
def readVarNat : List Nat → Option (Nat × List Nat)
  | [] => none
  | b :: rest =>
      if b < 128 then some (b, rest)
      else (readVarNat rest).bind fun p => some (b % 128 + 128 * p.1, p.2)

/-- Read exactly `n` bytes. -/
def readBytes : Nat → List Nat → Option (List Nat × List Nat)
  | 0, l => some ([], l)
  | _ + 1, [] => none
  | n + 1, b :: l =>
      (readBytes n l).bind fun p => some (b :: p.1, p.2)

/-- Read 4 little-endian bytes as a natural number. -/
def readUInt32 : List Nat → Option (Nat × List Nat)
  | b0 :: b1 :: b2 :: b3 :: rest =>
      some (b0 + 256 * (b1 + 256 * (b2 + 256 * b3)), rest)
  | _ => none

/-- Read a key pair: 32 private bytes then 32 public bytes. -/
def readKeyPair (l : List Nat) : Option (Curve25519KeyPair × List Nat) :=
  (readBytes 32 l).bind fun p =>
    (readBytes 32 p.2).bind fun q => some (⟨p.1, q.1⟩, q.2)

/-- Read a `LocalKey`: id then key pair. -/
def readLocalKey (l : List Nat) : Option (LocalKey × List Nat) :=
  (readVarNat l).bind fun p =>
    (readKeyPair p.2).bind fun q => some (⟨p.1, q.1⟩, q.2)

/-- Read `n` consecutive `LocalKey` entries. -/
def readLocalKeys : Nat → List Nat → Option (List LocalKey × List Nat)
  | 0, l => some ([], l)
  | n + 1, l =>
      (readLocalKey l).bind fun p =>
        (readLocalKeys n p.2).bind fun q => some (p.1 :: q.1, q.2)

/-- A fresh id generator value strictly above every id the decoded
state carries, so that ids stay unused after a restore. -/
def nextIdAfter (idk : LocalKey) (ks : List LocalKey) : Nat :=
  (idk.id :: ks.map LocalKey.id).foldr max 0 + 1

/-- Lift a reader result into the decode monad, a missing byte being a
corrupt pickle. -/
def orCorrupt {α : Type} : Option α → Except ErrorCode α
  | none => Except.error ErrorCode.CORRUPT_PICKLE
  | some x => Except.ok x

/-- Decode the pickle fields from a buffer: version tag, identity key,
count, keys, publish boundary.  Any missing byte, an over-capacity
count or a boundary past the list size is a corrupt pickle; a wrong
version tag is an unknown pickle version. -/
def unpickleFields (buf : List Nat) :
    Except ErrorCode ((LocalKey × List LocalKey × Nat) × List Nat) :=
  match buf with
  | [] => Except.error ErrorCode.CORRUPT_PICKLE
  | v :: r0 =>
      if v = PICKLE_VERSION then
        (orCorrupt (readLocalKey r0)).bind fun p =>
          (orCorrupt (readUInt32 p.2)).bind fun q =>
            if q.1 ≤ MAX_ONE_TIME_KEYS then
              (orCorrupt (readLocalKeys q.1 q.2)).bind fun s =>
                (orCorrupt (readUInt32 s.2)).bind fun u =>
                  if u.1 ≤ s.1.length then
                    Except.ok ((p.1, s.1, u.1), u.2)
                  else Except.error ErrorCode.CORRUPT_PICKLE
            else Except.error ErrorCode.CORRUPT_PICKLE
      else Except.error ErrorCode.UNKNOWN_PICKLE_VERSION

/-- Modelled from the spec: `unpickle(pos, end, account)`.  Decodes the
pickle layout with a bounds-checked streaming decode and, on success,
replaces the whole account state and returns the number of bytes
consumed; on failure the account fields are left fully unchanged (only
the latched error is set), per the spec's atomicity requirement. -/
def Account.unpickle (a : Account) (buf : List Nat) :
    Account × Except ErrorCode Nat :=
  match unpickleFields buf with
  | Except.error e => ({ a with last_error := e }, Except.error e)
  | Except.ok x =>
      ({ identity_key := some x.1.1,
         one_time_keys := x.1.2.1,
         next_key_id := nextIdAfter x.1.1 x.1.2.1,
         publish_boundary := x.1.2.2,
         last_error := a.last_error }, Except.ok (buf.length - x.2.length))

/-! ## Reachable account states

The public mutating operations of the core: the lifecycle starts from a
fresh account populated by a successful `new_account`, after which keys
are generated, removed and marked published in any order. -/

/-- Account states reachable through the public operations. -/
inductive Reachable : Account → Prop
  | create (random : List Nat) (h : new_account_random_length ≤ random.length) :
      Reachable (Account.fresh.new_account random).1
  | gen (a : Account) (count : Nat) (random : List Nat) :
      Reachable a → Reachable (a.generate_one_time_keys count random).1
  | remove (a : Account) (id : Nat) :
      Reachable a → Reachable (a.remove_key id).1
  | mark (a : Account) :
      Reachable a → Reachable a.mark_keys_as_published

/-- The ids of a list of keys. -/
def idsOf (ks : List LocalKey) : List Nat := ks.map LocalKey.id

/-- Every id the account currently holds: the identity key's id (when
set) and the one-time key ids. -/
def Account.allIds (a : Account) : List Nat :=
  (match a.identity_key with
   | none => []
   | some k => [k.id]) ++ idsOf a.one_time_keys

/-! ## The JNI layer (`olm_account.cpp`) -/

/-- Human-readable error strings, as returned by the last-error
accessor the JNI layer reads. -/
def errorString : ErrorCode → String
  | ErrorCode.SUCCESS => "SUCCESS"
  | ErrorCode.NOT_ENOUGH_RANDOM => "NOT_ENOUGH_RANDOM"
  | ErrorCode.OUTPUT_BUFFER_TOO_SMALL => "OUTPUT_BUFFER_TOO_SMALL"
  | ErrorCode.BAD_ACCOUNT_KEY => "BAD_ACCOUNT_KEY"
  | ErrorCode.NO_SUCH_KEY => "NO_SUCH_KEY"
  | ErrorCode.CORRUPT_PICKLE => "CORRUPT_PICKLE"
  | ErrorCode.UNKNOWN_PICKLE_VERSION => "UNKNOWN_PICKLE_VERSION"
  | ErrorCode.CAPACITY_EXCEEDED => "CAPACITY_EXCEEDED"

/-- Modelled from the spec: `olm_unpickle_account`.  The
authenticated-encryption wrapper around the raw pickle is an external
collaborator excluded from the core, so the key is not interpreted and
unpickling operates on the raw pickle bytes. -/
def olm_unpickle_account (a : Account) (_key : List Nat)
    (pickled : List Nat) : Account × Except ErrorCode Nat :=
  a.unpickle pickled

/-- `deserializeJni` from `olm_account.cpp`: checks the key buffer, the
serialized-data buffer and the account handle for null in that order
and returns the null `jstring` (here `none`) when any is missing;
otherwise runs `olm_unpickle_account` and returns null on success or
the error string on failure.  The result pairs the returned `jstring`
with the state of the account the handle points to. -/
def deserializeJni (acct : Option Account) (serialized : Option (List Nat))
    (key : Option (List Nat)) : Option String × Option Account :=
  match key with
  | none => (none, acct)
  | some k =>
      match serialized with
      | none => (none, acct)
      | some d =>
          match acct with
          | none => (none, none)
          | some a =>
              match olm_unpickle_account a k d with
              | (a2, Except.ok _) => (none, some a2)
              | (a2, Except.error e) => (some (errorString e), some a2)

/-! ## Well-formedness and codec lemmas -/

/-- A key pair with the byte lengths the curve primitive produces. -/
def KeyPairWF (k : Curve25519KeyPair) : Prop :=
  k.private_key.length = 32 ∧ k.public_key.length = 32

/-- The shape facts the pickle codec relies on, true of every reachable
account. -/
def AccountWF (a : Account) : Prop :=
  (∀ k ∈ a.one_time_keys, KeyPairWF k.key) ∧
  (∀ k, a.identity_key = some k → KeyPairWF k.key) ∧
  a.one_time_keys.length ≤ MAX_ONE_TIME_KEYS ∧
  a.publish_boundary ≤ a.one_time_keys.length

@[simp]
theorem orCorrupt_some {α : Type} (x : α) :
    orCorrupt (some x) = Except.ok x := rfl

@[simp]
theorem orCorrupt_none {α : Type} :
    orCorrupt (none : Option α) = Except.error ErrorCode.CORRUPT_PICKLE := rfl

@[simp]
theorem ok_bind {α β : Type} (a : α) (f : α → Except ErrorCode β) :
    (Except.ok a : Except ErrorCode α).bind f = f a := rfl

@[simp]
theorem error_bind {α β : Type} (e : ErrorCode)
    (f : α → Except ErrorCode β) :
    (Except.error e : Except ErrorCode α).bind f = Except.error e := rfl

theorem readBytes_append (xs r : List Nat) :
    readBytes xs.length (xs ++ r) = some (xs, r) := by
  induction xs with
  | nil => rfl
  | cons b t ih => simp [readBytes, ih]

theorem readVarNat_writeVarNatAux :
    ∀ (fuel n : Nat), n ≤ fuel →
    ∀ r, readVarNat (writeVarNatAux fuel n ++ r) = some (n, r) := by
  intro fuel
  induction fuel with
  | zero =>
      intro n hn r
      have : n = 0 := by omega
      subst this
      simp [writeVarNatAux, readVarNat]
  | succ fuel ih =>
      intro n hn r
      by_cases h : n < 128
      · simp [writeVarNatAux, h, readVarNat]
      · have hrec : n / 128 ≤ fuel := by omega
        have hb : ¬ (n % 128 + 128 < 128) := by omega
        simp only [writeVarNatAux, if_neg h, List.cons_append, readVarNat,
          if_neg hb]
        rw [ih (n / 128) hrec r]
        simp only [Option.some_bind, Option.some.injEq, Prod.mk.injEq,
          and_true]
        omega

theorem readVarNat_writeVarNat (n : Nat) :
    ∀ r, readVarNat (writeVarNat n ++ r) = some (n, r) :=
  readVarNat_writeVarNatAux n n (le_refl n)

theorem writeVarNatAux_length :
    ∀ (fuel n : Nat), (writeVarNatAux fuel n).length = varLenAux fuel n := by
  intro fuel
  induction fuel with
  | zero => intro n; rfl
  | succ fuel ih =>
      intro n
      by_cases h : n < 128
      · simp [writeVarNatAux, varLenAux, h]
      · simp [writeVarNatAux, varLenAux, h, ih, Nat.add_comm]

theorem writeVarNat_length (n : Nat) :
    (writeVarNat n).length = varLen n :=
  writeVarNatAux_length n n

theorem readUInt32_encodeUInt32 (n : Nat) (hn : n < 4294967296)
    (r : List Nat) : readUInt32 (encodeUInt32 n ++ r) = some (n, r) := by
  simp only [encodeUInt32, List.cons_append, List.nil_append, readUInt32,
    Option.some.injEq, Prod.mk.injEq, and_true]
  omega

theorem readKeyPair_pickleKeyPair (k : Curve25519KeyPair)
    (h : KeyPairWF k) (r : List Nat) :
    readKeyPair (pickleKeyPair k ++ r) = some (k, r) := by
  obtain ⟨h1, h2⟩ := h
  have e1 : readBytes 32 (k.private_key ++ (k.public_key ++ r))
      = some (k.private_key, k.public_key ++ r) := by
    rw [← h1]; exact readBytes_append _ _
  have e2 : readBytes 32 (k.public_key ++ r) = some (k.public_key, r) := by
    rw [← h2]; exact readBytes_append _ _
  simp [readKeyPair, pickleKeyPair, List.append_assoc, e1, e2]

theorem readLocalKey_pickleLocalKey (k : LocalKey)
    (h : KeyPairWF k.key) (r : List Nat) :
    readLocalKey (pickleLocalKey k ++ r) = some (k, r) := by
  simp [readLocalKey, pickleLocalKey, List.append_assoc,
    readVarNat_writeVarNat k.id (pickleKeyPair k.key ++ r),
    readKeyPair_pickleKeyPair k.key h r]

theorem readLocalKeys_pickleKeys (ks : List LocalKey)
    (h : ∀ k ∈ ks, KeyPairWF k.key) (r : List Nat) :
    readLocalKeys ks.length (pickleKeys ks ++ r) = some (ks, r) := by
  induction ks with
  | nil => rfl
  | cons k t ih =>
      have hk : KeyPairWF k.key := h k (List.mem_cons_self k t)
      have ht : ∀ x ∈ t, KeyPairWF x.key :=
        fun x hx => h x (List.mem_cons_of_mem k hx)
      simp [readLocalKeys, pickleKeys, List.append_assoc,
        readLocalKey_pickleLocalKey k hk, ih ht]

theorem pickleLocalKey_length (k : LocalKey) (h : KeyPairWF k.key) :
    (pickleLocalKey k).length = localKeyLen k := by
  obtain ⟨h1, h2⟩ := h
  simp [pickleLocalKey, pickleKeyPair, localKeyLen, writeVarNat_length,
    h1, h2]

theorem pickleKeys_length (ks : List LocalKey)
    (h : ∀ k ∈ ks, KeyPairWF k.key) :
    (pickleKeys ks).length = keysLen ks := by
  induction ks with
  | nil => rfl
  | cons k t ih =>
      have hk : KeyPairWF k.key := h k (List.mem_cons_self k t)
      have ht : ∀ x ∈ t, KeyPairWF x.key :=
        fun x hx => h x (List.mem_cons_of_mem k hx)
      simp [pickleKeys, keysLen, pickleLocalKey_length k hk, ih ht]

theorem pickle_length_eq (a : Account) (h : AccountWF a) :
    (a.pickle).length = pickle_length a := by
  obtain ⟨hks, hid, _, _⟩ := h
  have hidk : KeyPairWF ((a.identity_key.getD defaultLocalKey).key) := by
    cases hval : a.identity_key with
    | none => exact ⟨by simp [defaultLocalKey], by simp [defaultLocalKey]⟩
    | some k => simpa using hid k hval
  simp [Account.pickle, encodeUInt32, pickle_length,
    pickleLocalKey_length _ hidk, pickleKeys_length _ hks]
  omega

/-- The pickle bytes, split as the decoder will walk them. -/
theorem pickle_shape (a : Account) (k0 : LocalKey)
    (hid : a.identity_key = some k0) :
    a.pickle = PICKLE_VERSION ::
      (pickleLocalKey k0 ++ (encodeUInt32 a.one_time_keys.length
        ++ (pickleKeys a.one_time_keys ++ encodeUInt32 a.publish_boundary))) := by
  simp [Account.pickle, hid, List.append_assoc]

theorem unpickleFields_encode (idk : LocalKey) (ks : List LocalKey) (pb : Nat)
    (hidk : KeyPairWF idk.key) (hks : ∀ k ∈ ks, KeyPairWF k.key)
    (hlen : ks.length ≤ MAX_ONE_TIME_KEYS) (hpb : pb ≤ ks.length) :
    unpickleFields (PICKLE_VERSION ::
      (pickleLocalKey idk ++ (encodeUInt32 ks.length
        ++ (pickleKeys ks ++ encodeUInt32 pb)))) =
      Except.ok ((idk, ks, pb), ([] : List Nat)) := by
  have hn : ks.length < 4294967296 := by
    unfold MAX_ONE_TIME_KEYS at hlen; omega
  have hpb32 : pb < 4294967296 := by omega
  have hend : readUInt32 (encodeUInt32 pb) = some (pb, []) := by
    simpa using readUInt32_encodeUInt32 pb hpb32 []
  simp [unpickleFields,
    readLocalKey_pickleLocalKey idk hidk,
    readUInt32_encodeUInt32 ks.length hn,
    readLocalKeys_pickleKeys ks hks,
    hend, hlen, hpb]

/-- Round trip at the level of whole accounts: unpickling the pickle of
a well-formed account into any target restores the identity key, the
one-time key list and the publish boundary, and consumes exactly
`pickle_length` bytes. -/
theorem unpickle_pickle (a b : Account) (h : AccountWF a) (k0 : LocalKey)
    (hid : a.identity_key = some k0) :
    b.unpickle a.pickle =
      ({ identity_key := some k0,
         one_time_keys := a.one_time_keys,
         next_key_id := nextIdAfter k0 a.one_time_keys,
         publish_boundary := a.publish_boundary,
         last_error := b.last_error }, Except.ok (pickle_length a)) := by
  have hlen : (a.pickle).length = pickle_length a := pickle_length_eq a h
  obtain ⟨hks, hidwf, hsz, hpb⟩ := h
  have hfields : unpickleFields a.pickle =
      Except.ok ((k0, a.one_time_keys, a.publish_boundary), ([] : List Nat)) := by
    rw [pickle_shape a k0 hid]
    exact unpickleFields_encode k0 a.one_time_keys a.publish_boundary
      (hidwf k0 hid) hks hsz hpb
  unfold Account.unpickle
  rw [hfields]
  simp [hlen]

/-! ## Extension and suffix behavior of the decoder -/

theorem readVarNat_ext : ∀ {l : List Nat} {v : Nat} {r : List Nat},
    readVarNat l = some (v, r) →
    ∀ e, readVarNat (l ++ e) = some (v, r ++ e) := by
  intro l
  induction l with
  | nil => intro v r h e; simp [readVarNat] at h
  | cons b t ih =>
      intro v r h e
      by_cases hb : b < 128
      · simp [readVarNat, hb] at h ⊢
        exact ⟨h.1, by rw [h.2]⟩
      · simp only [readVarNat, if_neg hb] at h
        cases h1 : readVarNat t with
        | none => rw [h1] at h; simp at h
        | some p =>
            obtain ⟨pv, pr⟩ := p
            rw [h1] at h
            simp only [Option.some_bind, Option.some.injEq, Prod.mk.injEq] at h
            simp only [List.cons_append, readVarNat, if_neg hb, List.append_eq]
            rw [ih h1 e]
            simp [h.1, h.2]

theorem readBytes_ext : ∀ {n : Nat} {l v r : List Nat},
    readBytes n l = some (v, r) →
    ∀ e, readBytes n (l ++ e) = some (v, r ++ e) := by
  intro n
  induction n with
  | zero =>
      intro l v r h e
      simp [readBytes] at h ⊢
      exact ⟨h.1, by rw [h.2]⟩
  | succ m ih =>
      intro l v r h e
      cases l with
      | nil => simp [readBytes] at h
      | cons b t =>
          simp only [readBytes] at h
          cases h1 : readBytes m t with
          | none => rw [h1] at h; simp at h
          | some p =>
              obtain ⟨pv, pr⟩ := p
              rw [h1] at h
              simp only [Option.some_bind, Option.some.injEq, Prod.mk.injEq] at h
              simp only [List.cons_append, readBytes, List.append_eq]
              rw [ih h1 e]
              simp [← h.1, h.2]

theorem readUInt32_ext {l : List Nat} {v : Nat} {r : List Nat}
    (h : readUInt32 l = some (v, r)) (e : List Nat) :
    readUInt32 (l ++ e) = some (v, r ++ e) := by
  match l with
  | b0 :: b1 :: b2 :: b3 :: rest =>
      simp [readUInt32] at h ⊢
      exact ⟨h.1, by rw [h.2]⟩
  | [] => simp [readUInt32] at h
  | [_] => simp [readUInt32] at h
  | [_, _] => simp [readUInt32] at h
  | [_, _, _] => simp [readUInt32] at h

theorem readKeyPair_ext {l : List Nat} {v : Curve25519KeyPair}
    {r : List Nat} (h : readKeyPair l = some (v, r)) (e : List Nat) :
    readKeyPair (l ++ e) = some (v, r ++ e) := by
  unfold readKeyPair at h ⊢
  cases h1 : readBytes 32 l with
  | none => simp [h1] at h
  | some p =>
      cases h2 : readBytes 32 p.2 with
      | none => simp [h1, h2] at h
      | some q =>
          simp only [h1, h2, Option.some_bind, Option.some.injEq,
            Prod.mk.injEq] at h
          simp [readBytes_ext h1 e, readBytes_ext h2 e, h.1, h.2]

theorem readLocalKey_ext {l : List Nat} {v : LocalKey} {r : List Nat}
    (h : readLocalKey l = some (v, r)) (e : List Nat) :
    readLocalKey (l ++ e) = some (v, r ++ e) := by
  unfold readLocalKey at h ⊢
  cases h1 : readVarNat l with
  | none => simp [h1] at h
  | some p =>
      cases h2 : readKeyPair p.2 with
      | none => simp [h1, h2] at h
      | some q =>
          simp only [h1, h2, Option.some_bind, Option.some.injEq,
            Prod.mk.injEq] at h
          simp [readVarNat_ext h1 e, readKeyPair_ext h2 e, h.1, h.2]

theorem readLocalKeys_ext : ∀ {n : Nat} {l : List Nat}
    {v : List LocalKey} {r : List Nat},
    readLocalKeys n l = some (v, r) →
    ∀ e, readLocalKeys n (l ++ e) = some (v, r ++ e) := by
  intro n
  induction n with
  | zero =>
      intro l v r h e
      simp [readLocalKeys] at h ⊢
      exact ⟨h.1, by rw [h.2]⟩
  | succ m ih =>
      intro l v r h e
      unfold readLocalKeys at h ⊢
      cases h1 : readLocalKey l with
      | none => simp [h1] at h
      | some p =>
          cases h2 : readLocalKeys m p.2 with
          | none => simp [h1, h2] at h
          | some q =>
              simp only [h1, h2, Option.some_bind, Option.some.injEq,
                Prod.mk.injEq] at h
              simp [readLocalKey_ext h1 e, ih h2 e, h.1, h.2]

theorem unpickleFields_ext {l : List Nat}
    {v : LocalKey × List LocalKey × Nat} {r : List Nat}
    (h : unpickleFields l = Except.ok (v, r)) (e : List Nat) :
    unpickleFields (l ++ e) = Except.ok (v, r ++ e) := by
  cases l with
  | nil => simp [unpickleFields] at h
  | cons b t =>
      by_cases hv : b = PICKLE_VERSION
      · subst hv
        simp only [unpickleFields, if_pos rfl, List.cons_append] at h ⊢
        cases h1 : readLocalKey t with
        | none => simp [h1] at h
        | some p =>
            cases h2 : readUInt32 p.2 with
            | none => simp [h1, h2] at h
            | some q =>
                by_cases hn : q.1 ≤ MAX_ONE_TIME_KEYS
                · cases h3 : readLocalKeys q.1 q.2 with
                  | none => simp [h1, h2, h3, hn] at h
                  | some s =>
                      cases h4 : readUInt32 s.2 with
                      | none => simp [h1, h2, h3, h4, hn] at h
                      | some u =>
                          by_cases hpb : u.1 ≤ s.1.length
                          · simp only [h1, h2, h3, h4, hn, hpb, orCorrupt_some,
                              ok_bind, if_pos, if_true, Except.ok.injEq,
                              Prod.mk.injEq] at h
                            simp [readLocalKey_ext h1 e, readUInt32_ext h2 e,
                              readLocalKeys_ext h3 e, readUInt32_ext h4 e,
                              hn, hpb, h.1, h.2]
                          · simp [h1, h2, h3, h4, hn, hpb] at h
                · simp [h1, h2, hn] at h
      · simp [unpickleFields, hv] at h

theorem readVarNat_suffix : ∀ {l : List Nat} {v : Nat} {r : List Nat},
    readVarNat l = some (v, r) → ∃ c, l = c ++ r := by
  intro l
  induction l with
  | nil => intro v r h; simp [readVarNat] at h
  | cons b t ih =>
      intro v r h
      by_cases hb : b < 128
      · simp [readVarNat, hb] at h
        exact ⟨[b], by simp [h.2]⟩
      · simp only [readVarNat, if_neg hb] at h
        cases h1 : readVarNat t with
        | none => rw [h1] at h; simp at h
        | some p =>
            obtain ⟨pv, pr⟩ := p
            rw [h1] at h
            simp only [Option.some_bind, Option.some.injEq, Prod.mk.injEq] at h
            obtain ⟨c, hc⟩ := ih h1
            exact ⟨b :: c, by simp [hc, h.2]⟩

theorem readBytes_suffix : ∀ {n : Nat} {l v r : List Nat},
    readBytes n l = some (v, r) → l = v ++ r := by
  intro n
  induction n with
  | zero =>
      intro l v r h
      simp [readBytes] at h
      simp [← h.1, h.2]
  | succ m ih =>
      intro l v r h
      cases l with
      | nil => simp [readBytes] at h
      | cons b t =>
          simp only [readBytes] at h
          cases h1 : readBytes m t with
          | none => rw [h1] at h; simp at h
          | some p =>
              obtain ⟨pv, pr⟩ := p
              rw [h1] at h
              simp only [Option.some_bind, Option.some.injEq, Prod.mk.injEq] at h
              have := ih h1
              simp [← h.1, h.2, this]

theorem readUInt32_suffix {l : List Nat} {v : Nat} {r : List Nat}
    (h : readUInt32 l = some (v, r)) : ∃ c, l = c ++ r := by
  match l with
  | b0 :: b1 :: b2 :: b3 :: rest =>
      simp [readUInt32] at h
      exact ⟨[b0, b1, b2, b3], by simp [h.2]⟩
  | [] => simp [readUInt32] at h
  | [_] => simp [readUInt32] at h
  | [_, _] => simp [readUInt32] at h
  | [_, _, _] => simp [readUInt32] at h

theorem readKeyPair_suffix {l : List Nat} {v : Curve25519KeyPair}
    {r : List Nat} (h : readKeyPair l = some (v, r)) : ∃ c, l = c ++ r := by
  unfold readKeyPair at h
  cases h1 : readBytes 32 l with
  | none => simp [h1] at h
  | some p =>
      cases h2 : readBytes 32 p.2 with
      | none => simp [h1, h2] at h
      | some q =>
          simp only [h1, h2, Option.some_bind, Option.some.injEq,
            Prod.mk.injEq] at h
          have e1 := readBytes_suffix h1
          have e2 := readBytes_suffix h2
          exact ⟨p.1 ++ q.1, by rw [e1, e2, h.2, List.append_assoc]⟩

theorem readLocalKey_suffix {l : List Nat} {v : LocalKey} {r : List Nat}
    (h : readLocalKey l = some (v, r)) : ∃ c, l = c ++ r := by
  unfold readLocalKey at h
  cases h1 : readVarNat l with
  | none => simp [h1] at h
  | some p =>
      cases h2 : readKeyPair p.2 with
      | none => simp [h1, h2] at h
      | some q =>
          simp only [h1, h2, Option.some_bind, Option.some.injEq,
            Prod.mk.injEq] at h
          obtain ⟨c1, hc1⟩ := readVarNat_suffix h1
          obtain ⟨c2, hc2⟩ := readKeyPair_suffix h2
          exact ⟨c1 ++ c2, by rw [hc1, hc2, h.2, List.append_assoc]⟩

theorem readLocalKeys_suffix : ∀ {n : Nat} {l : List Nat}
    {v : List LocalKey} {r : List Nat},
    readLocalKeys n l = some (v, r) → ∃ c, l = c ++ r := by
  intro n
  induction n with
  | zero =>
      intro l v r h
      simp [readLocalKeys] at h
      exact ⟨[], by simp [h.2]⟩
  | succ m ih =>
      intro l v r h
      unfold readLocalKeys at h
      cases h1 : readLocalKey l with
      | none => simp [h1] at h
      | some p =>
          cases h2 : readLocalKeys m p.2 with
          | none => simp [h1, h2] at h
          | some q =>
              simp only [h1, h2, Option.some_bind, Option.some.injEq,
                Prod.mk.injEq] at h
              obtain ⟨c1, hc1⟩ := readLocalKey_suffix h1
              obtain ⟨c2, hc2⟩ := ih h2
              exact ⟨c1 ++ c2, by rw [hc1, hc2, h.2, List.append_assoc]⟩

/-- On success the decoder's leftover is a genuine suffix of the
supplied buffer: every byte it walked lies in the front segment, never
at or past the end. -/
theorem unpickleFields_suffix {l : List Nat}
    {v : LocalKey × List LocalKey × Nat} {r : List Nat}
    (h : unpickleFields l = Except.ok (v, r)) : ∃ c, l = c ++ r := by
  cases l with
  | nil => simp [unpickleFields] at h
  | cons b t =>
      by_cases hv : b = PICKLE_VERSION
      · subst hv
        simp only [unpickleFields, if_pos rfl] at h
        cases h1 : readLocalKey t with
        | none => simp [h1] at h
        | some p =>
            cases h2 : readUInt32 p.2 with
            | none => simp [h1, h2] at h
            | some q =>
                by_cases hn : q.1 ≤ MAX_ONE_TIME_KEYS
                · cases h3 : readLocalKeys q.1 q.2 with
                  | none => simp [h1, h2, h3, hn] at h
                  | some s =>
                      cases h4 : readUInt32 s.2 with
                      | none => simp [h1, h2, h3, h4, hn] at h
                      | some u =>
                          by_cases hpb : u.1 ≤ s.1.length
                          · simp only [h1, h2, h3, h4, hn, hpb, orCorrupt_some,
                              ok_bind, if_pos, if_true, Except.ok.injEq,
                              Prod.mk.injEq] at h
                            obtain ⟨c1, hc1⟩ := readLocalKey_suffix h1
                            obtain ⟨c2, hc2⟩ := readUInt32_suffix h2
                            obtain ⟨c3, hc3⟩ := readLocalKeys_suffix h3
                            obtain ⟨c4, hc4⟩ := readUInt32_suffix h4
                            refine ⟨PICKLE_VERSION :: (c1 ++ (c2 ++ (c3 ++ c4))), ?_⟩
                            simp [hc1, hc2, hc3, hc4, h.2, List.append_assoc]
                          · simp [h1, h2, h3, h4, hn, hpb] at h
                · simp [h1, h2, hn] at h
      · simp [unpickleFields, hv] at h

/-- Every failing decode of a buffer whose first byte (when present) is
the right version tag fails specifically with the corrupt-pickle
error. -/
theorem unpickleFields_error_corrupt : ∀ {l : List Nat} {e : ErrorCode},
    (l = [] ∨ ∃ t, l = PICKLE_VERSION :: t) →
    unpickleFields l = Except.error e → e = ErrorCode.CORRUPT_PICKLE := by
  intro l e hl h
  rcases hl with rfl | ⟨t, rfl⟩
  · simp only [unpickleFields, Except.error.injEq] at h
    exact h.symm
  · simp only [unpickleFields, if_pos rfl] at h
    cases h1 : readLocalKey t with
    | none => simp [h1] at h; exact h.symm
    | some p =>
        cases h2 : readUInt32 p.2 with
        | none => simp [h1, h2] at h; exact h.symm
        | some q =>
            by_cases hn : q.1 ≤ MAX_ONE_TIME_KEYS
            · cases h3 : readLocalKeys q.1 q.2 with
              | none => simp [h1, h2, h3, hn] at h; exact h.symm
              | some s =>
                  cases h4 : readUInt32 s.2 with
                  | none => simp [h1, h2, h3, h4, hn] at h; exact h.symm
                  | some u =>
                      by_cases hpb : u.1 ≤ s.1.length
                      · simp [h1, h2, h3, h4, hn, hpb] at h
                      · simp [h1, h2, h3, h4, hn, hpb] at h
                        exact h.symm
            · simp [h1, h2, hn] at h
              exact h.symm

/-- Decoding any strict prefix of a valid pickle fails with the
corrupt-pickle error. -/
theorem unpickleFields_truncation (a : Account) (h : AccountWF a)
    (k0 : LocalKey) (hid : a.identity_key = some k0) :
    ∀ k, k < (a.pickle).length →
      unpickleFields ((a.pickle).take k) =
        Except.error ErrorCode.CORRUPT_PICKLE := by
  intro k hk
  obtain ⟨hks, hidwf, hsz, hpb⟩ := h
  have hfull : unpickleFields a.pickle =
      Except.ok ((k0, a.one_time_keys, a.publish_boundary), ([] : List Nat)) := by
    rw [pickle_shape a k0 hid]
    exact unpickleFields_encode k0 a.one_time_keys a.publish_boundary
      (hidwf k0 hid) hks hsz hpb
  have hshape : (a.pickle).take k = [] ∨
      ∃ t, (a.pickle).take k = PICKLE_VERSION :: t := by
    rw [pickle_shape a k0 hid]
    cases k with
    | zero => exact Or.inl rfl
    | succ m => exact Or.inr ⟨_, List.take_succ_cons⟩
  cases hres : unpickleFields ((a.pickle).take k) with
  | error e =>
      rw [unpickleFields_error_corrupt hshape hres]
  | ok x =>
      exfalso
      obtain ⟨y, rest⟩ := x
      have hext := unpickleFields_ext hres ((a.pickle).drop k)
      rw [List.take_append_drop] at hext
      rw [hfull] at hext
      have h5 := hext.symm
      simp at h5
      obtain ⟨-, -, h6⟩ := h5
      omega

/-! ## Facts about key generation and removal -/

theorem generateKey_wf (r : List Nat) (h : 32 ≤ r.length) :
    KeyPairWF (generateKey r) := by
  constructor <;> simp [generateKey, curvePublic] <;> omega

theorem genKeys_length (s c : Nat) (r : List Nat) :
    (genKeys s c r).length = c := by
  induction c generalizing s r with
  | zero => rfl
  | succ n ih => simp [genKeys, ih]

theorem genKeys_id_range (s c : Nat) (r : List Nat) :
    ∀ k ∈ genKeys s c r, s ≤ k.id ∧ k.id < s + c := by
  induction c generalizing s r with
  | zero => simp [genKeys]
  | succ n ih =>
      intro k hk
      simp only [genKeys, List.mem_cons] at hk
      rcases hk with rfl | hk
      · simp
      · have := ih (s + 1) (r.drop 32) k hk
        omega

theorem genKeys_wf (s c : Nat) (r : List Nat) (h : 32 * c ≤ r.length) :
    ∀ k ∈ genKeys s c r, KeyPairWF k.key := by
  induction c generalizing s r with
  | zero => simp [genKeys]
  | succ n ih =>
      intro k hk
      simp only [genKeys, List.mem_cons] at hk
      rcases hk with rfl | hk
      · exact generateKey_wf r (by omega)
      · refine ih (s + 1) (r.drop 32) ?_ k hk
        simp
        omega

theorem genKeys_ids_nodup (s c : Nat) (r : List Nat) :
    (idsOf (genKeys s c r)).Nodup := by
  induction c generalizing s r with
  | zero => simp [genKeys, idsOf]
  | succ n ih =>
      simp only [genKeys, idsOf, List.map_cons, List.nodup_cons]
      refine ⟨?_, ih (s + 1) (r.drop 32)⟩
      intro hmem
      simp only [List.mem_map] at hmem
      obtain ⟨k, hk, hkid⟩ := hmem
      have := genKeys_id_range (s + 1) n (r.drop 32) k hk
      omega

theorem removeKeyAux_none_iff (id : Nat) (l : List LocalKey) :
    removeKeyAux id l = none ↔ id ∉ idsOf l := by
  induction l with
  | nil => simp [removeKeyAux, idsOf]
  | cons k t ih =>
      by_cases hk : k.id = id
      · simp [removeKeyAux, hk, idsOf]
      · simp only [removeKeyAux, if_neg hk, idsOf, List.map_cons,
          List.mem_cons]
        cases h1 : removeKeyAux id t with
        | none =>
            have ht := ih.mp h1
            simp only [idsOf] at ht
            simp [h1, ht, Ne.symm hk]
        | some p =>
            obtain ⟨i, l2⟩ := p
            have ht : id ∈ idsOf t := by
              by_contra hc
              rw [← ih] at hc
              rw [h1] at hc
              cases hc
            simp only [idsOf] at ht
            simp [h1, ht]

theorem removeKeyAux_some (id : Nat) :
    ∀ (l : List LocalKey) (i : Nat) (l2 : List LocalKey),
    removeKeyAux id l = some (i, l2) →
    i < l.length ∧ l2.length + 1 = l.length ∧ l2.Sublist l := by
  intro l
  induction l with
  | nil => intro i l2 h; simp [removeKeyAux] at h
  | cons k t ih =>
      intro i l2 h
      by_cases hk : k.id = id
      · simp only [removeKeyAux, if_pos hk, Option.some.injEq,
          Prod.mk.injEq] at h
        obtain ⟨hi, hl⟩ := h
        subst hi
        subst hl
        exact ⟨by simp, by simp, List.sublist_cons_self k t⟩
      · simp only [removeKeyAux, if_neg hk] at h
        cases h1 : removeKeyAux id t with
        | none => rw [h1] at h; simp at h
        | some p =>
            obtain ⟨j, l3⟩ := p
            rw [h1] at h
            simp only [Option.some.injEq, Prod.mk.injEq] at h
            obtain ⟨hi, hl⟩ := h
            subst hi
            subst hl
            obtain ⟨hj, hl3, hsub⟩ := ih j l3 h1
            refine ⟨?_, ?_, ?_⟩
            · simp; omega
            · simp; omega
            · exact List.Sublist.cons₂ k hsub

theorem removeKeyAux_filter (id : Nat) :
    ∀ (l : List LocalKey), (idsOf l).Nodup →
    ∀ (i : Nat) (l2 : List LocalKey), removeKeyAux id l = some (i, l2) →
    l2 = l.filter (fun k => k.id != id) := by
  intro l
  induction l with
  | nil => intro _ i l2 h; simp [removeKeyAux] at h
  | cons k t ih =>
      intro hnd i l2 h
      simp only [idsOf, List.map_cons, List.nodup_cons] at hnd
      by_cases hk : k.id = id
      · simp only [removeKeyAux, if_pos hk, Option.some.injEq,
          Prod.mk.injEq] at h
        have habs : id ∉ idsOf t := by rw [← hk]; exact hnd.1
        have : t.filter (fun k => k.id != id) = t := by
          rw [List.filter_eq_self]
          intro x hx
          simp only [bne_iff_ne, ne_eq]
          intro hxid
          exact habs (by simp [idsOf, List.mem_map]; exact ⟨x, hx, hxid⟩)
        simp [List.filter_cons, hk, this, ← h.2]
      · simp only [removeKeyAux, if_neg hk] at h
        cases h1 : removeKeyAux id t with
        | none => rw [h1] at h; simp at h
        | some p =>
            obtain ⟨j, l3⟩ := p
            rw [h1] at h
            simp only [Option.some.injEq, Prod.mk.injEq] at h
            have := ih hnd.2 j l3 h1
            rw [← h.2, this]
            simp [List.filter_cons, hk]

/-! ## The reachable-state invariant -/

/-- Everything the public operations maintain: codec well-formedness,
an initialized identity key, pairwise-distinct ids, and all held ids
strictly below the id generator. -/
def AccountInv (a : Account) : Prop :=
  AccountWF a ∧ (∃ k, a.identity_key = some k) ∧
  a.allIds.Nodup ∧ (∀ i ∈ a.allIds, i < a.next_key_id)

theorem allIds_some (a : Account) (k : LocalKey)
    (hid : a.identity_key = some k) :
    a.allIds = k.id :: idsOf a.one_time_keys := by
  simp [Account.allIds, hid]

theorem inv_set_error (a : Account) (e : ErrorCode) (h : AccountInv a) :
    AccountInv { a with last_error := e } := h

theorem inv_create (random : List Nat)
    (h : new_account_random_length ≤ random.length) :
    AccountInv (Account.fresh.new_account random).1 := by
  have hnot : ¬ (random.length < new_account_random_length) := by omega
  simp only [Account.new_account, if_neg hnot]
  refine ⟨⟨?_, ?_, ?_, ?_⟩, ⟨_, rfl⟩, ?_, ?_⟩
  · simp [Account.fresh]
  · intro k hk
    simp only [Account.fresh, Option.some.injEq] at hk
    rw [← hk]
    exact generateKey_wf random (by simpa [new_account_random_length] using h)
  · simp [Account.fresh, MAX_ONE_TIME_KEYS]
  · simp [Account.fresh]
  · simp [Account.allIds, Account.fresh, idsOf]
  · simp [Account.allIds, Account.fresh, idsOf]

theorem inv_gen (a : Account) (c : Nat) (r : List Nat) (h : AccountInv a) :
    AccountInv (a.generate_one_time_keys c r).1 := by
  obtain ⟨⟨hwf, hidwf, hsz, hpb⟩, ⟨k0, hid⟩, hnd, hbound⟩ := h
  unfold Account.generate_one_time_keys
  by_cases h1 : r.length < one_time_key_random_length c
  · rw [if_pos h1]
    exact inv_set_error _ _ ⟨⟨hwf, hidwf, hsz, hpb⟩, ⟨k0, hid⟩, hnd, hbound⟩
  · rw [if_neg h1]
    by_cases h2 : MAX_ONE_TIME_KEYS < a.one_time_keys.length + c
    · rw [if_pos h2]
      exact inv_set_error _ _ ⟨⟨hwf, hidwf, hsz, hpb⟩, ⟨k0, hid⟩, hnd, hbound⟩
    · rw [if_neg h2]
      have hrand : 32 * c ≤ r.length := by
        simp only [one_time_key_random_length] at h1; omega
      have hgenwf := genKeys_wf a.next_key_id c r hrand
      have hgenrange := genKeys_id_range a.next_key_id c r
      refine ⟨⟨?_, ?_, ?_, ?_⟩, ⟨k0, hid⟩, ?_, ?_⟩
      · intro k hk
        simp only [List.mem_append] at hk
        rcases hk with hk | hk
        · exact hwf k hk
        · exact hgenwf k hk
      · intro k hk
        simp only at hk
        exact hidwf k hk
      · simp only [List.length_append, genKeys_length]
        omega
      · simp only [List.length_append, genKeys_length]
        omega
      · simp only [Account.allIds, hid] at hnd ⊢
        simp only [List.singleton_append, List.nodup_cons, idsOf,
          List.map_append, List.mem_append] at hnd ⊢
        have hk0 : k0.id < a.next_key_id := by
          have := hbound k0.id (by rw [allIds_some _ k0 hid]; simp)
          exact this
        refine ⟨?_, ?_⟩
        · rintro (hmem | hmem)
          · exact hnd.1 hmem
          · simp only [List.mem_map] at hmem
            obtain ⟨k, hk, hkid⟩ := hmem
            have := hgenrange k hk
            omega
        · rw [List.nodup_append]
          refine ⟨hnd.2, genKeys_ids_nodup _ _ _, ?_⟩
          intro x hx hx2
          simp only [List.mem_map] at hx hx2
          obtain ⟨k1, hk1, hk1id⟩ := hx
          obtain ⟨k2, hk2, hk2id⟩ := hx2
          have hlt : k1.id < a.next_key_id := by
            have := hbound k1.id
              (by rw [allIds_some _ k0 hid]
                  simp only [List.mem_cons, idsOf, List.mem_map]
                  exact Or.inr ⟨k1, hk1, rfl⟩)
            exact this
          have := hgenrange k2 hk2
          omega
      · intro i hi
        show i < a.next_key_id + c
        simp only [Account.allIds, hid] at hi
        simp only [List.singleton_append, List.mem_cons, idsOf,
          List.map_append, List.mem_append, List.mem_map] at hi
        have hk0 : k0.id < a.next_key_id := by
          have := hbound k0.id (by rw [allIds_some _ k0 hid]; simp)
          exact this
        rcases hi with rfl | ⟨k, hk, rfl⟩ | ⟨k, hk, rfl⟩
        · omega
        · have := hbound k.id
            (by rw [allIds_some _ k0 hid]
                simp only [List.mem_cons, idsOf, List.mem_map]
                exact Or.inr ⟨k, hk, rfl⟩)
          omega
        · have := hgenrange k hk
          omega

theorem inv_remove (a : Account) (id : Nat) (h : AccountInv a) :
    AccountInv (a.remove_key id).1 := by
  obtain ⟨⟨hwf, hidwf, hsz, hpb⟩, ⟨k0, hid⟩, hnd, hbound⟩ := h
  unfold Account.remove_key
  cases h1 : removeKeyAux id a.one_time_keys with
  | none =>
      exact inv_set_error _ _ ⟨⟨hwf, hidwf, hsz, hpb⟩, ⟨k0, hid⟩, hnd, hbound⟩
  | some p =>
      obtain ⟨i, l2⟩ := p
      obtain ⟨hi, hlen, hsub⟩ := removeKeyAux_some id a.one_time_keys i l2 h1
      have hsubids : (idsOf l2).Sublist (idsOf a.one_time_keys) :=
        List.Sublist.map LocalKey.id hsub
      refine ⟨⟨?_, ?_, ?_, ?_⟩, ⟨k0, hid⟩, ?_, ?_⟩
      · intro k hk
        exact hwf k (hsub.subset hk)
      · intro k hk
        simp only at hk
        exact hidwf k hk
      · simp only
        omega
      · simp only
        split <;> omega
      · simp only [Account.allIds, hid, List.singleton_append,
          List.nodup_cons] at hnd ⊢
        exact ⟨fun hmem => hnd.1 (hsubids.subset hmem), hnd.2.sublist hsubids⟩
      · intro j hj
        show j < a.next_key_id
        simp only [Account.allIds, hid, List.singleton_append,
          List.mem_cons] at hj
        refine hbound j ?_
        rw [allIds_some a k0 hid]
        simp only [List.mem_cons]
        rcases hj with rfl | hj
        · exact Or.inl rfl
        · exact Or.inr (hsubids.subset hj)

theorem inv_mark (a : Account) (h : AccountInv a) :
    AccountInv a.mark_keys_as_published := by
  obtain ⟨⟨hwf, hidwf, hsz, hpb⟩, ⟨k0, hid⟩, hnd, hbound⟩ := h
  exact ⟨⟨hwf, hidwf, hsz, le_refl _⟩, ⟨k0, hid⟩, hnd, hbound⟩

/-- Every reachable account satisfies the invariant. -/
theorem reachable_inv (a : Account) (h : Reachable a) : AccountInv a := by
  induction h with
  | create random hr => exact inv_create random hr
  | gen b count random _ ih => exact inv_gen b count random ih
  | remove b id _ ih => exact inv_remove b id ih
  | mark b _ ih => exact inv_mark b ih

/-- A removed id is gone from the filtered list. -/
theorem not_mem_ids_filter (i : Nat) (l : List LocalKey) :
    i ∉ idsOf (l.filter (fun k => k.id != i)) := by
  simp only [idsOf, List.mem_map, List.mem_filter, bne_iff_ne, ne_eq]
  rintro ⟨k, ⟨-, hne⟩, hid⟩
  exact hne hid

/-! ## Concrete sample states used by the witnesses -/

/-- A concrete account right after a successful `new_account`. -/
def testAccount0 : Account :=
  (Account.fresh.new_account (List.replicate 32 7)).1

/-- A concrete reachable account holding two one-time keys. -/
def testAccount : Account :=
  (testAccount0.generate_one_time_keys 2 (List.replicate 64 5)).1

theorem testAccount0_reachable : Reachable testAccount0 :=
  Reachable.create (List.replicate 32 7)
    (by simp [new_account_random_length])

theorem testAccount_reachable : Reachable testAccount :=
  Reachable.gen testAccount0 2 (List.replicate 64 5) testAccount0_reachable

instance {α β : Type} [DecidableEq α] [DecidableEq β] :
    DecidableEq (Except α β) := fun x y =>
  match x, y with
  | Except.ok a, Except.ok b =>
      if h : a = b then isTrue (by rw [h])
      else isFalse fun hc => h (Except.ok.inj hc)
  | Except.ok _, Except.error _ => isFalse fun hc => Except.noConfusion hc
  | Except.error _, Except.ok _ => isFalse fun hc => Except.noConfusion hc
  | Except.error e, Except.error f =>
      if h : e = f then isTrue (by rw [h])
      else isFalse fun hc => h (Except.error.inj hc)

/-! ## The claims -/

/-- C1: for every account state reachable through the public
operations, decoding the bytes produced by `pickle` with `unpickle`
yields an account equal to the original: identical identity key,
identical one-time key list (same ids, same key pairs, same order) and
identical publish boundary. -/
theorem claim_C1 (a b : Account) (h : Reachable a) :
    ∃ a2 : Account,
      b.unpickle a.pickle = (a2, Except.ok (pickle_length a)) ∧
      a2.identity_key = a.identity_key ∧
      a2.one_time_keys = a.one_time_keys ∧
      a2.publish_boundary = a.publish_boundary := by
  obtain ⟨hwf, ⟨k0, hid⟩, -, -⟩ := reachable_inv a h
  exact ⟨_, unpickle_pickle a b hwf k0 hid, hid.symm, rfl, rfl⟩

theorem claim_C1_witness :
    ∃ a2 : Account,
      Account.fresh.unpickle testAccount.pickle =
        (a2, Except.ok (pickle_length testAccount)) ∧
      a2.identity_key = testAccount.identity_key ∧
      a2.one_time_keys = testAccount.one_time_keys ∧
      a2.publish_boundary = testAccount.publish_boundary :=
  claim_C1 testAccount Account.fresh testAccount_reachable

/-- C2: for every reachable account, `unpickle` on any strict prefix of
its pickled encoding fails with the corrupt-pickle error (and latches
it); and the decoder never reads a byte at or past the supplied end:
on success the bytes consumed are exactly a front segment of the
supplied buffer. -/
theorem claim_C2 (a b : Account) (h : Reachable a) :
    (∀ k, k < (a.pickle).length →
      (b.unpickle ((a.pickle).take k)).2 =
          Except.error ErrorCode.CORRUPT_PICKLE ∧
      (b.unpickle ((a.pickle).take k)).1.last_error =
          ErrorCode.CORRUPT_PICKLE) ∧
    (∀ buf n, (b.unpickle buf).2 = Except.ok n →
      ∃ front rest, buf = front ++ rest ∧ n = front.length) := by
  obtain ⟨hwf, ⟨k0, hid⟩, -, -⟩ := reachable_inv a h
  constructor
  · intro k hk
    have ht := unpickleFields_truncation a hwf k0 hid k hk
    constructor <;> simp [Account.unpickle, ht]
  · intro buf n hok
    cases h1 : unpickleFields buf with
    | error e => simp [Account.unpickle, h1] at hok
    | ok x =>
        obtain ⟨v, rest⟩ := x
        obtain ⟨front, hfront⟩ := unpickleFields_suffix h1
        refine ⟨front, rest, hfront, ?_⟩
        simp [Account.unpickle, h1] at hok
        have hlen : buf.length = front.length + rest.length := by
          rw [hfront]; simp
        omega

theorem claim_C2_witness :
    (Account.fresh.unpickle ((testAccount.pickle).take 10)).2 =
      Except.error ErrorCode.CORRUPT_PICKLE :=
  ((claim_C2 testAccount Account.fresh testAccount_reachable).1 10
    (by decide)).1

/-- C3: whenever `unpickle` fails, the target account's fields
(identity key, one-time keys, publish boundary) are left fully
unchanged — never a mixture of old and new state; only the latched
error is set. -/
theorem claim_C3 (a : Account) (buf : List Nat) (e : ErrorCode)
    (h : (a.unpickle buf).2 = Except.error e) :
    (a.unpickle buf).1.identity_key = a.identity_key ∧
    (a.unpickle buf).1.one_time_keys = a.one_time_keys ∧
    (a.unpickle buf).1.publish_boundary = a.publish_boundary ∧
    (a.unpickle buf).1 = { a with last_error := e } := by
  cases h1 : unpickleFields buf with
  | ok x => simp [Account.unpickle, h1] at h
  | error e2 =>
      have he : e2 = e := by
        simp [Account.unpickle, h1] at h
        exact h
      subst he
      simp [Account.unpickle, h1]

theorem claim_C3_witness :
    (Account.fresh.unpickle []).1.identity_key =
        Account.fresh.identity_key ∧
    (Account.fresh.unpickle []).1.one_time_keys =
        Account.fresh.one_time_keys ∧
    (Account.fresh.unpickle []).1.publish_boundary =
        Account.fresh.publish_boundary ∧
    (Account.fresh.unpickle []).1 =
        { Account.fresh with last_error := ErrorCode.CORRUPT_PICKLE } :=
  claim_C3 Account.fresh [] ErrorCode.CORRUPT_PICKLE rfl

/-- C4: for every reachable account the number of one-time keys never
exceeds `MAX_ONE_TIME_KEYS`, and a generation that would push the
total past the bound fails without appending any keys. -/
theorem claim_C4 (a : Account) (h : Reachable a) :
    a.one_time_keys.length ≤ MAX_ONE_TIME_KEYS ∧
    ∀ count random,
      MAX_ONE_TIME_KEYS < a.one_time_keys.length + count →
      (a.generate_one_time_keys count random).1.one_time_keys
          = a.one_time_keys ∧
      (a.generate_one_time_keys count random).2 = none := by
  obtain ⟨⟨-, -, hsz, -⟩, -, -, -⟩ := reachable_inv a h
  refine ⟨hsz, ?_⟩
  intro count random hover
  unfold Account.generate_one_time_keys
  by_cases h1 : random.length < one_time_key_random_length count
  · simp [h1]
  · simp [h1, hover]

theorem claim_C4_witness :
    testAccount.one_time_keys.length ≤ MAX_ONE_TIME_KEYS ∧
    (testAccount.generate_one_time_keys 99 []).1.one_time_keys
        = testAccount.one_time_keys ∧
    (testAccount.generate_one_time_keys 99 []).2 = none :=
  ⟨(claim_C4 testAccount testAccount_reachable).1,
   ((claim_C4 testAccount testAccount_reachable).2 99 [] (by decide)).1,
   ((claim_C4 testAccount testAccount_reachable).2 99 [] (by decide)).2⟩

/-- C5: `new_account` on a random buffer shorter than
`new_account_random_length` fails with the not-enough-random error and
leaves every account field unchanged (the identity key stays unset);
on a buffer of at least the required length it succeeds, returns the
number of random bytes consumed and assigns the identity key. -/
theorem claim_C5 (a : Account) (random : List Nat) :
    (random.length < new_account_random_length →
      (a.new_account random).2 = none ∧
      (a.new_account random).1.identity_key = a.identity_key ∧
      (a.new_account random).1.one_time_keys = a.one_time_keys ∧
      (a.new_account random).1.publish_boundary = a.publish_boundary ∧
      (a.new_account random).1.last_error =
        ErrorCode.NOT_ENOUGH_RANDOM) ∧
    (new_account_random_length ≤ random.length →
      (a.new_account random).2 = some new_account_random_length ∧
      (a.new_account random).1.identity_key =
        some ⟨0, generateKey random⟩) := by
  constructor
  · intro h
    simp [Account.new_account, h]
  · intro h
    have hnot : ¬ random.length < new_account_random_length := by omega
    simp [Account.new_account, hnot]

theorem claim_C5_witness :
    ((Account.fresh.new_account (List.replicate 31 0)).2 = none ∧
     (Account.fresh.new_account (List.replicate 31 0)).1.identity_key
        = Account.fresh.identity_key ∧
     (Account.fresh.new_account (List.replicate 31 0)).1.one_time_keys
        = Account.fresh.one_time_keys ∧
     (Account.fresh.new_account (List.replicate 31 0)).1.publish_boundary
        = Account.fresh.publish_boundary ∧
     (Account.fresh.new_account (List.replicate 31 0)).1.last_error
        = ErrorCode.NOT_ENOUGH_RANDOM) ∧
    ((Account.fresh.new_account (List.replicate 32 7)).2
        = some new_account_random_length ∧
     (Account.fresh.new_account (List.replicate 32 7)).1.identity_key
        = some ⟨0, generateKey (List.replicate 32 7)⟩) :=
  ⟨(claim_C5 Account.fresh (List.replicate 31 0)).1 (by decide),
   (claim_C5 Account.fresh (List.replicate 32 7)).2 (by decide)⟩

/-- C6: on an account whose one-time key ids are pairwise distinct,
`remove_key(i)` for a present id succeeds, removes exactly that entry
preserving the relative order of the remaining entries, and a second
`remove_key(i)` fails with the no-such-key error; for an absent id
`remove_key` fails with no-such-key and changes nothing. -/
theorem claim_C6 (a : Account) (i : Nat)
    (hnd : (idsOf a.one_time_keys).Nodup) :
    (i ∈ idsOf a.one_time_keys →
      (∃ idx, (a.remove_key i).2 = some idx) ∧
      (a.remove_key i).1.one_time_keys
        = a.one_time_keys.filter (fun k => k.id != i) ∧
      ((a.remove_key i).1.remove_key i).2 = none ∧
      ((a.remove_key i).1.remove_key i).1.last_error
        = ErrorCode.NO_SUCH_KEY ∧
      ((a.remove_key i).1.remove_key i).1.one_time_keys
        = (a.remove_key i).1.one_time_keys) ∧
    (i ∉ idsOf a.one_time_keys →
      (a.remove_key i).2 = none ∧
      (a.remove_key i).1.last_error = ErrorCode.NO_SUCH_KEY ∧
      (a.remove_key i).1.one_time_keys = a.one_time_keys) := by
  constructor
  · intro hmem
    cases h1 : removeKeyAux i a.one_time_keys with
    | none =>
        rw [removeKeyAux_none_iff] at h1
        exact absurd hmem h1
    | some p =>
        obtain ⟨j, l2⟩ := p
        have hfil := removeKeyAux_filter i a.one_time_keys hnd j l2 h1
        have hgone : i ∉ idsOf l2 := by
          rw [hfil]; exact not_mem_ids_filter i _
        have h2 : removeKeyAux i l2 = none :=
          (removeKeyAux_none_iff i l2).mpr hgone
        have h2f : removeKeyAux i
            (a.one_time_keys.filter (fun k => k.id != i)) = none := by
          rw [← hfil]; exact h2
        refine ⟨⟨j, by simp [Account.remove_key, h1]⟩, ?_, ?_, ?_, ?_⟩ <;>
          simp [Account.remove_key, h1, hfil, h2f]
  · intro hmem
    have h1 : removeKeyAux i a.one_time_keys = none :=
      (removeKeyAux_none_iff i a.one_time_keys).mpr hmem
    refine ⟨?_, ?_, ?_⟩ <;> simp [Account.remove_key, h1]

theorem claim_C6_witness :
    (∃ idx, (testAccount.remove_key 1).2 = some idx) ∧
    (testAccount.remove_key 1).1.one_time_keys
      = testAccount.one_time_keys.filter (fun k => k.id != 1) ∧
    ((testAccount.remove_key 1).1.remove_key 1).2 = none ∧
    ((testAccount.remove_key 1).1.remove_key 1).1.last_error
      = ErrorCode.NO_SUCH_KEY ∧
    ((testAccount.remove_key 1).1.remove_key 1).1.one_time_keys
      = (testAccount.remove_key 1).1.one_time_keys :=
  (claim_C6 testAccount 1 (by decide)).1 (by decide)

/-- C7: for every reachable account, all ids held by the account (the
identity key id and the one-time key ids) are pairwise distinct and
strictly below the id generator; any further key generation keeps the
generator monotone and only introduces ids at or above it, so an id
once assigned is never assigned again within the account's
lifetime. -/
theorem claim_C7 (a : Account) (h : Reachable a) :
    a.allIds.Nodup ∧
    (∀ i ∈ a.allIds, i < a.next_key_id) ∧
    (∀ count random,
      a.next_key_id ≤
        (a.generate_one_time_keys count random).1.next_key_id ∧
      ∀ i ∈ (a.generate_one_time_keys count random).1.allIds,
        i ∈ a.allIds ∨ a.next_key_id ≤ i) := by
  obtain ⟨-, ⟨k0, hid⟩, hnd, hbound⟩ := reachable_inv a h
  refine ⟨hnd, hbound, ?_⟩
  intro count random
  unfold Account.generate_one_time_keys
  by_cases h1 : random.length < one_time_key_random_length count
  · rw [if_pos h1]
    exact ⟨le_refl _, fun i hi => Or.inl hi⟩
  · rw [if_neg h1]
    by_cases h2 : MAX_ONE_TIME_KEYS < a.one_time_keys.length + count
    · rw [if_pos h2]
      exact ⟨le_refl _, fun i hi => Or.inl hi⟩
    · rw [if_neg h2]
      refine ⟨Nat.le_add_right _ _, ?_⟩
      intro i hi
      simp only [Account.allIds, hid, List.singleton_append, List.mem_cons,
        idsOf, List.map_append, List.mem_append, List.mem_map] at hi
      rcases hi with rfl | ⟨k, hk, rfl⟩ | ⟨k, hk, rfl⟩
      · exact Or.inl (by rw [allIds_some a k0 hid]; simp)
      · refine Or.inl ?_
        rw [allIds_some a k0 hid]
        simp only [List.mem_cons, idsOf, List.mem_map]
        exact Or.inr ⟨k, hk, rfl⟩
      · exact Or.inr (genKeys_id_range a.next_key_id count random k hk).1

theorem claim_C7_witness :
    testAccount.allIds.Nodup ∧
    testAccount.next_key_id ≤
      (testAccount.generate_one_time_keys 1
        (List.replicate 32 9)).1.next_key_id :=
  ⟨(claim_C7 testAccount testAccount_reachable).1,
   ((claim_C7 testAccount testAccount_reachable).2.2 1
      (List.replicate 32 9)).1⟩

/-- C8: for every reachable account, `pickle` writes exactly
`pickle_length` bytes (so the pointer version returns
`pos + pickle_length(a)`), `pickle_length` being computed from the
account state alone without performing the encoding. -/
theorem claim_C8 (a : Account) (h : Reachable a) :
    (a.pickle).length = pickle_length a := by
  obtain ⟨hwf, -, -, -⟩ := reachable_inv a h
  exact pickle_length_eq a hwf

theorem claim_C8_witness :
    (testAccount.pickle).length = pickle_length testAccount :=
  claim_C8 testAccount testAccount_reachable

/-- C9: for every reachable account the publish boundary partitions
the one-time keys into a published front segment and the unpublished
tail; `mark_keys_as_published` advances the boundary to the current
size and is idempotent; published keys remain visible to `lookup_key`
and `remove_key` while the unpublished export becomes empty. -/
theorem claim_C9 (a : Account) (h : Reachable a) :
    a.publish_boundary ≤ a.one_time_keys.length ∧
    a.one_time_keys =
      a.one_time_keys.take a.publish_boundary ++ a.unpublished_keys ∧
    (a.mark_keys_as_published).publish_boundary
      = a.one_time_keys.length ∧
    (a.mark_keys_as_published).mark_keys_as_published
      = a.mark_keys_as_published ∧
    (∀ id, (a.mark_keys_as_published).lookup_key id
      = a.lookup_key id) ∧
    (∀ id, ((a.mark_keys_as_published).remove_key id).2
      = (a.remove_key id).2) ∧
    (a.mark_keys_as_published).unpublished_keys = [] := by
  obtain ⟨⟨-, -, -, hpb⟩, -, -, -⟩ := reachable_inv a h
  refine ⟨hpb, ?_, rfl, rfl, fun id => rfl, ?_, ?_⟩
  · rw [Account.unpublished_keys, List.take_append_drop]
  · intro id
    unfold Account.remove_key Account.mark_keys_as_published
    dsimp only
    cases h1 : removeKeyAux id a.one_time_keys with
    | none => rfl
    | some p => obtain ⟨i, l⟩ := p; rfl
  · simp [Account.unpublished_keys, Account.mark_keys_as_published]

theorem claim_C9_witness :
    testAccount.publish_boundary ≤ testAccount.one_time_keys.length ∧
    (testAccount.mark_keys_as_published).unpublished_keys = [] :=
  ⟨(claim_C9 testAccount testAccount_reachable).1,
   (claim_C9 testAccount testAccount_reachable).2.2.2.2.2.2⟩

/-- C10: `deserializeJni` returns the null string when the key buffer,
the serialized-data buffer or the account handle is null, without
touching the account — the same null it returns on a successful
deserialization, so those precondition failures are indistinguishable
from success at the Java interface. -/
theorem claim_C10 :
    (∀ (acct : Option Account) (serialized key : Option (List Nat)),
      key = none ∨ serialized = none ∨ acct = none →
      deserializeJni acct serialized key = (none, acct)) ∧
    (∀ (a a2 : Account) (k d : List Nat) (n : Nat),
      olm_unpickle_account a k d = (a2, Except.ok n) →
      deserializeJni (some a) (some d) (some k) = (none, some a2)) := by
  constructor
  · intro acct serialized key hnull
    cases key with
    | none => rfl
    | some k =>
        cases serialized with
        | none => rfl
        | some d =>
            cases acct with
            | none => rfl
            | some a => simp at hnull
  · intro a a2 k d n hok
    simp [deserializeJni, hok]

theorem claim_C10_witness :
    deserializeJni (some Account.fresh) (some []) none
      = (none, some Account.fresh) ∧
    deserializeJni (some Account.fresh) (some testAccount.pickle)
        (some [1, 2])
      = (none, some (Account.fresh.unpickle testAccount.pickle).1) :=
  ⟨claim_C10.1 (some Account.fresh) (some []) none (Or.inl rfl),
   claim_C10.2 Account.fresh (Account.fresh.unpickle testAccount.pickle).1
     [1, 2] testAccount.pickle (pickle_length testAccount) (by decide)⟩

end Olm
